import Mathlib

/-!
Verification of the load-combination utilities of the repository
(`python_modules/actions/load_combination_utils/utils.py`).

The Python code is shallowly embedded: Python strings become Lean `String`,
Python dictionaries (which preserve insertion order and overwrite values of
existing keys in place) become association lists `List (String × α)` built
with `dictInsert`, functions that may raise become `Option`/`Except`-valued
functions, and the file sink of the export functions becomes an explicit
trace of sink operations.  Python `float` values only ever cross these
functions through `str()` and `float()`, so they are modelled by a pair of
functions `fstr`/`fparse` bundled in `FloatOps`; concrete evaluations use
`litFloatOps`, which represents a float by its `repr` string.  The one
other floating-point computation, the padding width's
`int(math.log(sz, 10))` in `getNamedCombinations`, is likewise a function
parameter (`intLog10`), instantiated by `libmIntLog10`, which records the
verified libm behavior at the sizes evaluated here (in particular the
truncation to 2 at size 1000).
-/

set_option autoImplicit false

namespace XC

/-- Characters stripped by Python `str.strip()`:
space, tab, newline, carriage return, vertical tab, form feed. -/
def pyIsSpace (c : Char) : Bool :=
  c == ' ' || c == '\t' || c == '\n' || c == '\r' || c == '\x0b' || c == '\x0c'

/-- Model of Python `str.split(sep)` for a one-character separator, on
character lists: splits at every occurrence of `sep`, keeping empty chunks,
so the result always has one more element than there are separators. -/
def splitOnChar (sep : Char) : List Char → List (List Char)
  | [] => [[]]
  | c :: cs =>
    match splitOnChar sep cs with
    | [] => [[]]
    | r :: rs => if c = sep then [] :: r :: rs else (c :: r) :: rs

/-- Model of Python `str.strip()` on character lists: remove leading and
trailing whitespace. -/
def pyStripList (l : List Char) : List Char :=
  ((l.dropWhile pyIsSpace).reverse.dropWhile pyIsSpace).reverse

/-- Python `str.split(sep)` on `String`. -/
def pySplit (sep : Char) (s : String) : List String :=
  (splitOnChar sep s.toList).map String.mk

/-- Python `str.strip()` on `String`. -/
def pyStrip (s : String) : String :=
  String.mk (pyStripList s.toList)

/-- The only operations the combination utilities perform on Python floats:
rendering with `str()` and parsing with `float()` (which raises on a
malformed literal, hence `Option`). -/
structure FloatOps (α : Type) where
  fstr : α → String
  fparse : String → Option α

/-- Concrete `FloatOps` instance used for evaluation: a Python float value is
represented by its `repr` string, `str()` is the identity on it and
`float()` accepts it unchanged. -/
def litFloatOps : FloatOps String :=
  ⟨fun s => s, fun s => some s⟩

/-- Python `d[k] = v` on an insertion-ordered dictionary: if the key is
present its value is replaced in place, otherwise the pair is appended. -/
def dictInsert {α : Type} (d : List (String × α)) (k : String) (v : α) :
    List (String × α) :=
  if d.any (fun kv => kv.1 = k) then
    d.map (fun kv => if kv.1 = k then (k, v) else kv)
  else
    d ++ [(k, v)]

/-- Python `d[k]` lookup (first—and, with `dictInsert`, only—entry). -/
def dictGet {α : Type} (d : List (String × α)) (k : String) : Option α :=
  (d.find? (fun kv => kv.1 = k)).map Prod.snd

/-- The loop body of `utils.getCombinationDict` (utils.py:171-174): strip
one addend, split it on `*` into factor and action (a `ValueError` — here
`none` — unless exactly one `*`), parse the factor as a float and store it
under the action name. -/
def parseAddend {α : Type} (ops : FloatOps α) (retval : List (String × α))
    (l : String) : Option (List (String × α)) :=
  match pySplit '*' (pyStrip l) with
  | [factor, action] =>
    match ops.fparse factor with
    | some v => some (dictInsert retval action v)
    | none => none
  | _ => none

/-- Embedding of `utils.getCombinationDict` (utils.py:161-175): split the
expression on `+` and fold `parseAddend` over the addends. -/
def getCombinationDict {α : Type} (ops : FloatOps α) (loadCombination : String) :
    Option (List (String × α)) :=
  if 0 < loadCombination.length then
    (pySplit '+' loadCombination).foldlM (parseAddend ops) []
  else
    some []

/-- Embedding of `utils.getCombinationExpr` (utils.py:177-192): render each
entry as `str(factor) + '*' + key` in dictionary order and join the terms
with `+` (empty dictionary renders to the empty string). -/
def getCombinationExpr {α : Type} (ops : FloatOps α) (combDict : List (String × α)) :
    String :=
  match combDict.map (fun kv => ops.fstr kv.2 ++ "*" ++ kv.1) with
  | [] => ""
  | t :: rest => rest.foldl (fun retval s => retval ++ "+" ++ s) t

/-- Embedding of `utils.splitCombination` (utils.py:194-210): parse the
combination, then put each addend whose action name is among `loads` into
the first string and every other addend into the second, both joined
with `+`. -/
def splitCombination {α : Type} (ops : FloatOps α) (loadCombination : String)
    (loads : List String) : Option (String × String) :=
  match getCombinationDict ops loadCombination with
  | none => none
  | some combDict =>
    let tmp := combDict.foldl (fun (acc : List String × List String) kv =>
      let addend := ops.fstr kv.2 ++ "*" ++ kv.1
      if loads.contains kv.1 then (acc.1 ++ [addend], acc.2)
      else (acc.1, acc.2 ++ [addend])) ([], [])
    some (String.intercalate "+" tmp.1, String.intercalate "+" tmp.2)

/-- Model of Python `str.isalnum()` for a single character (restricted to
ASCII letters and digits, which covers every action-name character the
utilities produce). -/
def pyIsAlnum (c : Char) : Bool :=
  c.isAlphanum

/-- Embedding of `utils.getFileNameFromCombinationExpresion`
(utils.py:212-214): keep exactly the characters for which `isalnum()`
holds, in order. -/
def getFileNameFromCombinationExpresion (loadCombination : String) : String :=
  String.mk (loadCombination.toList.filter pyIsAlnum)

/-- Decimal digits, most significant first, by structural recursion on a
fuel bound (so that the kernel can evaluate it on concrete inputs). -/
def natDigitsFuel : Nat → Nat → List Char
  | 0, _ => []
  | fuel + 1, n =>
    if n < 10 then [Nat.digitChar n]
    else natDigitsFuel fuel (n / 10) ++ [Nat.digitChar (n % 10)]

/-- Decimal digits of a natural number, most significant first: the model of
Python `str(count)` for the non-negative counters used by the naming code. -/
def natDigits (n : Nat) : List Char :=
  natDigitsFuel (n + 1) n

/-- Python `str(n)` for a non-negative integer. -/
def pyStrNat (n : Nat) : String :=
  String.mk (natDigits n)

/-- Floor of the base-10 logarithm, by structural recursion on a fuel bound;
proved equal to Mathlib's `Nat.log 10` below. -/
def natLog10Fuel : Nat → Nat → Nat
  | 0, _ => 0
  | fuel + 1, n => if n < 10 then 0 else natLog10Fuel fuel (n / 10) + 1

/-- `⌊log₁₀ n⌋` (and `0` for `n = 0`), by structural recursion; proved equal
to Mathlib's `Nat.log 10` below.  This is exact integer arithmetic — it is
not a model of the source's floating-point logarithm, which is the
`intLog10` parameter of `getNamedCombinations`. -/
def natLog10 (n : Nat) : Nat :=
  natLog10Fuel (n + 1) n

/-- Python `str.zfill(width)` for a string without sign character: pad on
the left with `'0'` up to `width`; longer strings are returned unchanged. -/
def pyZfill (width : Nat) (s : String) : String :=
  if s.length < width then String.mk (List.replicate (width - s.length) '0') ++ s
  else s

/-- Embedding of the module-level `utils.getNamedCombinations`
(utils.py:251-266).  For a non-empty list it computes the padding width
`szLength`, and stores each combination under `prefix + str(count).zfill(szLength)`
in enumeration order; for an empty list it returns the empty dictionary
without computing any logarithm.  Python computes the width as
`int(math.log(sz, 10)) + 1`, where `math.log(sz, 10)` is the IEEE-double
quotient `log(sz)/log(10)` of the C library logarithm; like the float
`str`/`float` pair, that floating-point computation is modelled by a
function parameter: `intLog10 sz` stands for `int(math.log(sz, 10))`
(instantiated by `libmIntLog10` for concrete evaluation). -/
def getNamedCombinations {α : Type} (intLog10 : Nat → Nat)
    (loadCombinations : List α) (pfx : String) : List (String × α) :=
  let sz := loadCombinations.length
  if 0 < sz then
    let szLength := intLog10 sz + 1
    loadCombinations.enum.foldl (fun retval ic =>
      dictInsert retval (pfx ++ pyZfill szLength (pyStrNat ic.1)) ic.2) []
  else
    []

/-- Concrete model of the libm evaluation of `int(math.log(n, 10))`:
`log(1000)/log(10) = 2.9999999999999996 < 3` in IEEE doubles (verified
against the same C library logarithm CPython divides), so truncation
yields 2 at n = 1000; at the other sizes this development evaluates
(1, 10, 100) the quotient is exact and truncation agrees with the exact
integer logarithm. -/
def libmIntLog10 (n : Nat) : Nat :=
  if n = 1000 then 2 else natLog10 n

/-- A load combination as returned by the external generator: the only
attribute the utilities read is `name`, the rendered expression string
(e.g. `"1.00*G + 1.50*Q"`). -/
structure LoadCombination where
  name : String
deriving DecidableEq, Repr

/-- The header line written by both export functions. -/
def xcCombinationsHeader : String :=
  "combs= loadLoader.getLoadCombinations\n"

/-- The statement line written for one named combination:
`comb= combs.newLoadCombination("<name>","<expression>")`. -/
def xcCombinationLine (key : String) (comb : LoadCombination) : String :=
  "comb= combs.newLoadCombination(" ++ "\"" ++ key ++ "\",\"" ++ comb.name ++ "\")\n"

/-- Embedding of the module-level `utils.writeXCLoadCombinations`
(utils.py:268-290) restricted to what it writes on the normal path: the
header line, then one `newLoadCombination` line per named combination, in
dictionary order.  The `intLog10` parameter models the floating-point
logarithm of the naming step, as in `getNamedCombinations`. -/
def writeXCLoadCombinations (intLog10 : Nat → Nat) (pfx : String)
    (loadCombinations : List LoadCombination) : String :=
  let namedCombinations := getNamedCombinations intLog10 loadCombinations pfx
  xcCombinationsHeader ++
    String.join (namedCombinations.map (fun kv => xcCombinationLine kv.1 kv.2))

/-- One operation performed on the output sink (`sys.stdout` or the file
opened from `outputFileName`). -/
inductive SinkOp where
  | write (s : String)
  | flush
  | close
deriving DecidableEq, Repr

/-- Run a sequence of `f.write` calls against a sink on which the call with
0-based index `start + i` raises when `failAt = some (start + i)`: returns
the writes performed before the exception and whether an exception was
raised. -/
def emitWrites (failAt : Option Nat) (start : Nat) : List String → List SinkOp × Bool
  | [] => ([], false)
  | m :: ms =>
    if failAt = some start then ([], true)
    else
      let rest := emitWrites failAt (start + 1) ms
      (SinkOp.write m :: rest.1, rest.2)

/-- Execution trace of `utils.writeXCLoadCombinations` (utils.py:268-290)
against a sink whose `write` call number `failAt` (if any) raises: the
header and the combination lines are written in order; only when no write
raised does the function flush (stdout sink, `toFile = false`) or close
(file sink, `toFile = true`); an exception propagates immediately, with no
flush and no close (the source has no `try`/`finally`).  Returns the sink
operations performed and whether an exception escaped. -/
def writeXCLoadCombinationsTrace (intLog10 : Nat → Nat) (failAt : Option Nat)
    (toFile : Bool) (pfx : String) (loadCombinations : List LoadCombination) :
    List SinkOp × Bool :=
  let namedCombinations := getNamedCombinations intLog10 loadCombinations pfx
  let msgs := xcCombinationsHeader ::
    namedCombinations.map (fun kv => xcCombinationLine kv.1 kv.2)
  let r := emitWrites failAt 0 msgs
  if r.2 then (r.1, true)
  else if toFile then (r.1 ++ [SinkOp.close], false)
  else (r.1 ++ [SinkOp.flush], false)

/-- The state of a `CombGenerator` that `getNamedCombinations` reads: the
six per-situation combination containers returned by the external C++
generator (`getSLSCharacteristicCombinations`, ..., `getULSSeismicCombinations`). -/
structure CombGeneratorModel where
  slsCharacteristic : List LoadCombination
  slsFrequent : List LoadCombination
  slsQuasiPermanent : List LoadCombination
  ulsTransient : List LoadCombination
  ulsAccidental : List LoadCombination
  ulsSeismic : List LoadCombination

/-- Embedding of the method `CombGenerator.getNamedCombinations`
(utils.py:92-124).  Each recognized situation selects a prefix and a
combination container and the result is the named dictionary.  In the
`else` branch the source evaluates `lmsg.error(...)`, but `lmsg` is never
imported in utils.py (and the message references the undefined name
`group`, and the locals `prefix`/`loadCombinations` are unbound at the
`return`), so the call raises `NameError` instead of returning. -/
def CombGeneratorModel.getNamedCombinations (g : CombGeneratorModel)
    (intLog10 : Nat → Nat) (situation : String) :
    Except String (List (String × LoadCombination)) :=
  if situation = "SLSRare" then
    Except.ok (XC.getNamedCombinations intLog10 g.slsCharacteristic "SLSR")
  else if situation = "SLSFrequent" then
    Except.ok (XC.getNamedCombinations intLog10 g.slsFrequent "SLSF")
  else if situation = "SLSQuasiPermanent" then
    Except.ok (XC.getNamedCombinations intLog10 g.slsQuasiPermanent "SLSQP")
  else if situation = "ULSTransient" then
    Except.ok (XC.getNamedCombinations intLog10 g.ulsTransient "ULS")
  else if situation = "ULSAccidental" then
    Except.ok (XC.getNamedCombinations intLog10 g.ulsAccidental "ULSA")
  else if situation = "ULSSeismic" then
    Except.ok (XC.getNamedCombinations intLog10 g.ulsSeismic "ULSS")
  else
    Except.error "NameError: name lmsg is not defined"

/-- Join chunks with a separator character: the left inverse of `splitOnChar`. -/
def joinSep (sep : Char) : List (List Char) → List Char
  | [] => []
  | [x] => x
  | x :: y :: xs => x ++ sep :: joinSep sep (y :: xs)

theorem splitOnChar_ne_nil (sep : Char) (l : List Char) : splitOnChar sep l ≠ [] := by
  induction l with
  | nil => simp [splitOnChar]
  | cons c cs ih =>
    simp only [splitOnChar]
    cases h : splitOnChar sep cs with
    | nil => simp
    | cons r rs => by_cases hc : c = sep <;> simp [hc]

theorem splitOnChar_of_not_mem {sep : Char} {l : List Char} (h : sep ∉ l) :
    splitOnChar sep l = [l] := by
  induction l with
  | nil => rfl
  | cons c cs ih =>
    have hcs : sep ∉ cs := fun hm => h (List.mem_cons_of_mem _ hm)
    have hc : ¬(c = sep) := fun he => h (he ▸ List.mem_cons_self _ _)
    simp only [splitOnChar, ih hcs]
    simp [hc]

theorem splitOnChar_append {sep : Char} {chunk rest : List Char} (h : sep ∉ chunk) :
    splitOnChar sep (chunk ++ sep :: rest) = chunk :: splitOnChar sep rest := by
  induction chunk with
  | nil =>
    simp only [List.nil_append, splitOnChar]
    cases hx : splitOnChar sep rest with
    | nil => exact absurd hx (splitOnChar_ne_nil sep rest)
    | cons r rs => simp
  | cons c cs ih =>
    have hcs : sep ∉ cs := fun hm => h (List.mem_cons_of_mem _ hm)
    have hc : ¬(c = sep) := fun he => h (he ▸ List.mem_cons_self _ _)
    simp only [List.cons_append, splitOnChar, List.append_eq]
    rw [ih hcs]
    simp [hc]

theorem joinSep_cons_cons (sep c : Char) (r : List Char) (rs : List (List Char)) :
    joinSep sep ((c :: r) :: rs) = c :: joinSep sep (r :: rs) := by
  cases rs <;> rfl

theorem joinSep_splitOnChar (sep : Char) (l : List Char) :
    joinSep sep (splitOnChar sep l) = l := by
  induction l with
  | nil => rfl
  | cons c cs ih =>
    simp only [splitOnChar]
    cases hx : splitOnChar sep cs with
    | nil => exact absurd hx (splitOnChar_ne_nil sep cs)
    | cons r rs =>
      rw [hx] at ih
      by_cases hc : c = sep
      · subst hc
        simp [joinSep, ih]
      · simp only [if_neg hc, joinSep_cons_cons, ih]

theorem not_mem_of_mem_splitOnChar {sep : Char} {l p : List Char}
    (hp : p ∈ splitOnChar sep l) : sep ∉ p := by
  induction l generalizing p with
  | nil =>
    simp only [splitOnChar, List.mem_singleton] at hp
    subst hp; simp
  | cons c cs ih =>
    simp only [splitOnChar] at hp
    cases hx : splitOnChar sep cs with
    | nil => exact absurd hx (splitOnChar_ne_nil sep cs)
    | cons r rs =>
      rw [hx] at hp
      by_cases hc : c = sep
      · simp only [if_pos hc] at hp
        rcases List.mem_cons.mp hp with h1 | h2
        · subst h1; simp
        · exact ih (hx ▸ h2)
      · simp only [if_neg hc] at hp
        rcases List.mem_cons.mp hp with h1 | h2
        · subst h1
          intro hmem
          rcases List.mem_cons.mp hmem with h3 | h4
          · exact hc h3.symm
          · exact ih (hx ▸ List.mem_cons_self r rs) h4
        · exact ih (hx ▸ List.mem_cons_of_mem r h2)

theorem dropWhile_eq_self_of_head {p : Char → Bool} {l : List Char}
    (h : ∀ c, l.head? = some c → p c = false) : l.dropWhile p = l := by
  cases l with
  | nil => rfl
  | cons c cs =>
    have := h c rfl
    simp [List.dropWhile_cons, this]

/-- `strip` leaves a string unchanged when it neither starts nor ends with
whitespace. -/
theorem pyStripList_eq_self {l : List Char}
    (h1 : ∀ c, l.head? = some c → pyIsSpace c = false)
    (h2 : ∀ c, l.getLast? = some c → pyIsSpace c = false) :
    pyStripList l = l := by
  unfold pyStripList
  rw [dropWhile_eq_self_of_head h1]
  rw [dropWhile_eq_self_of_head (by simpa using h2)]
  exact List.reverse_reverse l

/-- The result of `strip` never ends in whitespace. -/
theorem pyStripList_getLast {l : List Char} {c : Char}
    (h : (pyStripList l).getLast? = some c) : pyIsSpace c = false := by
  unfold pyStripList at h
  rw [List.getLast?_reverse] at h
  cases hx : ((l.dropWhile pyIsSpace).reverse).dropWhile pyIsSpace with
  | nil => rw [hx] at h; simp at h
  | cons d ds =>
    rw [hx] at h
    simp only [List.head?_cons, Option.some_inj] at h
    subst h
    have := List.head?_dropWhile_not pyIsSpace (l.dropWhile pyIsSpace).reverse
    rw [hx] at this
    simpa using this

/-- Decode a digit character. -/
def charVal (c : Char) : Nat :=
  c.toNat - '0'.toNat

/-- Value of a most-significant-first digit string. -/
def digitsVal (l : List Char) : Nat :=
  l.foldl (fun acc c => acc * 10 + charVal c) 0

theorem charVal_digitChar {d : Nat} (h : d < 10) : charVal (Nat.digitChar d) = d := by
  interval_cases d <;> rfl

theorem digitsVal_go (l : List Char) (a : Nat) :
    l.foldl (fun acc c => acc * 10 + charVal c) a =
      a * 10 ^ l.length + digitsVal l := by
  induction l generalizing a with
  | nil => simp [digitsVal]
  | cons c cs ih =>
    rw [List.foldl_cons, ih]
    have h2 : digitsVal (c :: cs) =
        List.foldl (fun acc c => acc * 10 + charVal c) (0 * 10 + charVal c) cs := rfl
    rw [ih] at h2
    rw [h2, List.length_cons]
    ring

theorem digitsVal_append_singleton (l : List Char) (c : Char) :
    digitsVal (l ++ [c]) = digitsVal l * 10 + charVal c := by
  simp [digitsVal, List.foldl_append]

theorem digitsVal_replicate_zero_append (k : Nat) (l : List Char) :
    digitsVal (List.replicate k '0' ++ l) = digitsVal l := by
  have hz : ∀ m : Nat,
      (List.replicate m '0').foldl (fun acc c => acc * 10 + charVal c) 0 = 0 := by
    intro m
    induction m with
    | zero => rfl
    | succ m ih =>
      rw [List.replicate_succ, List.foldl_cons]
      have h0 : (0 : Nat) * 10 + charVal '0' = 0 := rfl
      rw [h0, ih]
  unfold digitsVal
  rw [List.foldl_append, hz]

theorem digitsVal_natDigitsFuel {fuel n : Nat} (h : n < fuel) :
    digitsVal (natDigitsFuel fuel n) = n := by
  induction fuel generalizing n with
  | zero => omega
  | succ fuel ih =>
    simp only [natDigitsFuel]
    by_cases h10 : n < 10
    · simp [h10, digitsVal, charVal_digitChar h10]
    · have hdiv : n / 10 < fuel := by
        have h1 : n / 10 < n := Nat.div_lt_self (by omega) (by omega)
        omega
      rw [if_neg h10, digitsVal_append_singleton, ih hdiv,
        charVal_digitChar (Nat.mod_lt n (by omega))]
      omega

theorem digitsVal_natDigits (n : Nat) : digitsVal (natDigits n) = n :=
  digitsVal_natDigitsFuel (Nat.lt_succ_self n)

theorem natDigitsFuel_length {fuel n : Nat} (h : n < fuel) :
    (natDigitsFuel fuel n).length = Nat.log 10 n + 1 := by
  induction fuel generalizing n with
  | zero => omega
  | succ fuel ih =>
    simp only [natDigitsFuel]
    by_cases h10 : n < 10
    · have : Nat.log 10 n = 0 := Nat.log_eq_zero_iff.mpr (Or.inl h10)
      simp [h10, this]
    · have hdiv : n / 10 < fuel := by
        have h1 : n / 10 < n := Nat.div_lt_self (by omega) (by omega)
        omega
      have hlog : Nat.log 10 n = Nat.log 10 (n / 10) + 1 := by
        have h1 : 0 < Nat.log 10 n := Nat.log_pos (by omega) (by omega)
        have h2 := Nat.log_div_base 10 n
        omega
      rw [if_neg h10, List.length_append, ih hdiv, hlog]
      simp

/-- The length of `str(n)` is one more than `⌊log₁₀ n⌋`. -/
theorem natDigits_length (n : Nat) : (natDigits n).length = Nat.log 10 n + 1 :=
  natDigitsFuel_length (Nat.lt_succ_self n)

theorem natLog10Fuel_eq {fuel n : Nat} (h : n < fuel) :
    natLog10Fuel fuel n = Nat.log 10 n := by
  induction fuel generalizing n with
  | zero => omega
  | succ fuel ih =>
    simp only [natLog10Fuel]
    by_cases h10 : n < 10
    · have : Nat.log 10 n = 0 := Nat.log_eq_zero_iff.mpr (Or.inl h10)
      simp [h10, this]
    · have hdiv : n / 10 < fuel := by
        have h1 : n / 10 < n := Nat.div_lt_self (by omega) (by omega)
        omega
      have hlog : Nat.log 10 n = Nat.log 10 (n / 10) + 1 := by
        have h1 : 0 < Nat.log 10 n := Nat.log_pos (by omega) (by omega)
        have h2 := Nat.log_div_base 10 n
        omega
      rw [if_neg h10, ih hdiv, hlog]

/-- `natLog10` agrees with Mathlib's floor logarithm. -/
theorem natLog10_eq (n : Nat) : natLog10 n = Nat.log 10 n :=
  natLog10Fuel_eq (Nat.lt_succ_self n)

theorem toList_pyZfill_pyStrNat (w n : Nat) :
    (pyZfill w (pyStrNat n)).toList =
      List.replicate (w - (natDigits n).length) '0' ++ natDigits n := by
  unfold pyZfill pyStrNat
  by_cases h : (String.mk (natDigits n)).length < w
  · rw [if_pos h]
    simp [String.data_append]
  · rw [if_neg h]
    have : w - (natDigits n).length = 0 := by
      simp only [String.length] at h
      omega
    simp [this]

/-- Distinct counters are mapped to distinct zero-padded names. -/
theorem pyZfill_pyStrNat_inj {w i j : Nat}
    (h : pyZfill w (pyStrNat i) = pyZfill w (pyStrNat j)) : i = j := by
  have h2 := congrArg String.toList h
  rw [toList_pyZfill_pyStrNat, toList_pyZfill_pyStrNat] at h2
  have h3 := congrArg digitsVal h2
  rw [digitsVal_replicate_zero_append, digitsVal_replicate_zero_append,
    digitsVal_natDigits, digitsVal_natDigits] at h3
  exact h3

/-- The zero-padded name suffix has exactly the computed width whenever the
counter is below the combination count. -/
theorem pyZfill_pyStrNat_length {n i : Nat} (hi : i < n) :
    (pyZfill (Nat.log 10 n + 1) (pyStrNat i)).length = Nat.log 10 n + 1 := by
  have h1 : (pyZfill (Nat.log 10 n + 1) (pyStrNat i)).length =
      (List.replicate (Nat.log 10 n + 1 - (natDigits i).length) '0' ++
        natDigits i).length := by
    calc (pyZfill (Nat.log 10 n + 1) (pyStrNat i)).length
        = (pyZfill (Nat.log 10 n + 1) (pyStrNat i)).toList.length := rfl
      _ = _ := by rw [toList_pyZfill_pyStrNat]
  rw [h1, List.length_append, List.length_replicate, natDigits_length]
  have hle : Nat.log 10 i ≤ Nat.log 10 n := Nat.log_mono_right (by omega)
  omega

theorem dictInsert_of_fresh {α : Type} {d : List (String × α)} {k : String} {v : α}
    (h : ∀ kv ∈ d, kv.1 ≠ k) : dictInsert d k v = d ++ [(k, v)] := by
  unfold dictInsert
  have : d.any (fun kv => kv.1 = k) = false := by
    simp only [List.any_eq_false, decide_eq_true_eq]
    exact h
  rw [this]
  simp

/-- Keys of a dictionary. -/
def dictKeys {α : Type} (d : List (String × α)) : List String :=
  d.map Prod.fst

theorem dictKeys_dictInsert {α : Type} (d : List (String × α)) (k : String) (v : α) :
    dictKeys (dictInsert d k v) =
      if k ∈ dictKeys d then dictKeys d else dictKeys d ++ [k] := by
  unfold dictInsert dictKeys
  by_cases h : ∃ kv ∈ d, kv.1 = k
  · have hany : d.any (fun kv => kv.1 = k) = true := by
      simp only [List.any_eq_true, decide_eq_true_eq]
      exact h
    have hmem : k ∈ d.map Prod.fst := by
      obtain ⟨kv, hkv, he⟩ := h
      exact he ▸ List.mem_map_of_mem Prod.fst hkv
    rw [hany]
    simp only [if_true, if_pos hmem, List.map_map]
    apply List.map_congr_left
    intro kv _
    by_cases he : kv.1 = k
    · simp [he]
    · simp [he]
  · have hany : d.any (fun kv => kv.1 = k) = false := by
      simp only [List.any_eq_false, decide_eq_true_eq]
      intro kv hkv he
      exact h ⟨kv, hkv, he⟩
    have hmem : k ∉ d.map Prod.fst := by
      intro hk
      obtain ⟨kv, hkv, he⟩ := List.mem_map.mp hk
      exact h ⟨kv, hkv, he⟩
    rw [hany]
    simp [if_neg hmem, Bool.false_eq_true]

theorem dictInsert_nodup {α : Type} {d : List (String × α)} (k : String) (v : α)
    (h : (dictKeys d).Nodup) : (dictKeys (dictInsert d k v)).Nodup := by
  rw [dictKeys_dictInsert]
  by_cases hm : k ∈ dictKeys d
  · rw [if_pos hm]; exact h
  · rw [if_neg hm]
    simpa [List.nodup_append] using ⟨h, hm⟩

/-- Folding `dictInsert` over pairs with injectively generated fresh keys just
appends the renamed pairs. -/
theorem foldl_dictInsert_eq_append {α : Type} (f : Nat → String)
    (hinj : ∀ i j, f i = f j → i = j) :
    ∀ (ps : List (Nat × α)) (acc : List (String × α)),
      (ps.map Prod.fst).Nodup →
      (∀ kv ∈ acc, ∀ p ∈ ps, kv.1 ≠ f p.1) →
      ps.foldl (fun retval ic => dictInsert retval (f ic.1) ic.2) acc =
        acc ++ ps.map (fun ic => (f ic.1, ic.2))
  | [], acc, _, _ => by simp
  | p :: ps, acc, hnd, hacc => by
    rw [List.foldl_cons]
    have hfresh : ∀ kv ∈ acc, kv.1 ≠ f p.1 := fun kv hkv =>
      hacc kv hkv p (List.mem_cons_self p ps)
    rw [dictInsert_of_fresh hfresh]
    have hnd' : (ps.map Prod.fst).Nodup := (List.nodup_cons.mp (by simpa using hnd)).2
    have hidx : p.1 ∉ ps.map Prod.fst := (List.nodup_cons.mp (by simpa using hnd)).1
    rw [foldl_dictInsert_eq_append f hinj ps (acc ++ [(f p.1, p.2)]) hnd' ?fresh]
    · simp
    case fresh =>
      intro kv hkv q hq
      rcases List.mem_append.mp hkv with h1 | h2
      · exact hacc kv h1 q (List.mem_cons_of_mem p hq)
      · simp only [List.mem_singleton] at h2
        subst h2
        intro he
        have : p.1 = q.1 := hinj _ _ he
        exact hidx (this ▸ List.mem_map_of_mem Prod.fst hq)

/-- The characterization of `getNamedCombinations` on a non-empty list: the
dictionary pairs each combination, in input order, with
`prefix + str(index).zfill(width)` where `width = ⌊log₁₀ count⌋ + 1`. -/
theorem getNamedCombinations_eq_map {α : Type} (intLog10 : Nat → Nat)
    (combs : List α) (pfx : String) (h : 0 < combs.length) :
    getNamedCombinations intLog10 combs pfx =
      combs.enum.map (fun ic =>
        (pfx ++ pyZfill (intLog10 combs.length + 1) (pyStrNat ic.1), ic.2)) := by
  unfold getNamedCombinations
  rw [if_pos h]
  have hinj : ∀ i j : Nat,
      pfx ++ pyZfill (intLog10 combs.length + 1) (pyStrNat i) =
        pfx ++ pyZfill (intLog10 combs.length + 1) (pyStrNat j) → i = j := by
    intro i j he
    have h2 : (pfx ++ pyZfill (intLog10 combs.length + 1) (pyStrNat i)).data =
        (pfx ++ pyZfill (intLog10 combs.length + 1) (pyStrNat j)).data :=
      congrArg String.data he
    rw [String.data_append, String.data_append] at h2
    have h3 := List.append_cancel_left h2
    exact pyZfill_pyStrNat_inj (String.ext h3)
  have hnd : (combs.enum.map Prod.fst).Nodup := by
    rw [List.enum_map_fst]
    exact List.nodup_range combs.length
  rw [foldl_dictInsert_eq_append _ hinj combs.enum [] hnd (by simp)]
  simp

/-- Modelled from the spec: the combinatorial enumerator behind
`CombGenerator.computeCombinations` (utils.py:48-50) is the external
compiled `loadCombinations.LoadCombGenerator.genera()`, whose code is not
among the repository's Python sources.  Spec §4.3 step 2: each permanent
action with ambiguous sign contributes an independent favorable/unfavorable
choice, so the sign choices for N such actions are the `2^N` boolean
vectors of length N. -/
def signChoices : Nat → List (List Bool)
  | 0 => [[]]
  | n + 1 =>
    (signChoices n).map (fun v => false :: v) ++ (signChoices n).map (fun v => true :: v)

/-- Modelled from the spec (§4.3 step 3): the leading variable action is
chosen one at a time among the M independent choices, or not at all,
giving M + 1 cases. -/
def leadingChoices (m : Nat) : List (Option (Fin m)) :=
  none :: (List.finRange m).map some

/-- Modelled from the spec (§4.3 steps 2-4): the raw ULS enumeration for N
ambiguous-sign permanent actions and M leading-variable choices — every
sign vector combined with every leading choice — produced before
incompatibility/dependency filtering discards combinations. -/
def enumerateULSRaw (n m : Nat) : List (List Bool × Option (Fin m)) :=
  List.product (signChoices n) (leadingChoices m)

theorem signChoices_length (n : Nat) : (signChoices n).length = 2 ^ n := by
  induction n with
  | zero => rfl
  | succ n ih =>
    simp only [signChoices, List.length_append, List.length_map, ih, pow_succ]
    omega

/-- C4: the enumerated ULS combination count equals `2^N × (M+1)` before
incompatibility/dependency filtering, and filtering can only keep at most
that many combinations. -/
theorem uls_combination_count (n m : Nat) (keep : List Bool × Option (Fin m) → Bool) :
    (enumerateULSRaw n m).length = 2 ^ n * (m + 1) ∧
      ((enumerateULSRaw n m).filter keep).length ≤ 2 ^ n * (m + 1) := by
  have h1 : (enumerateULSRaw n m).length = 2 ^ n * (m + 1) := by
    unfold enumerateULSRaw
    have h2 : (leadingChoices m).length = m + 1 := by
      simp [leadingChoices]
    rw [show (signChoices n).product (leadingChoices m) =
      signChoices n ×ˢ leadingChoices m from rfl, List.length_product,
      signChoices_length, h2]
  exact ⟨h1, h1 ▸ List.length_filter_le keep (enumerateULSRaw n m)⟩

set_option maxRecDepth 100000 in
/-- C2 counterexample: at 1000 combinations the program pads to width 3,
not `⌊log₁₀ 1000⌋ + 1 = 4`: the source computes the width as
`int(math.log(1000, 10)) + 1` and the IEEE-double quotient
`log(1000)/log(10)` is below 3, truncating to 2 (modelled by
`libmIntLog10`), so the first combination is named `ULS000`, while the
claim's formula demands `ULS0000`. -/
theorem named_combinations_width_counterexample :
    (getNamedCombinations libmIntLog10
        (List.replicate 1000 ("c" : String)) "ULS").head? =
      some ("ULS" ++ pyZfill 3 (pyStrNat 0), "c") ∧
    Nat.log 10 (List.replicate 1000 ("c" : String)).length + 1 = 4 ∧
    ("ULS" ++ pyZfill 3 (pyStrNat 0) : String) ≠
      "ULS" ++ pyZfill 4 (pyStrNat 0) := by
  refine ⟨?_, ?_, by decide⟩
  · rw [getNamedCombinations_eq_map libmIntLog10
      (List.replicate 1000 ("c" : String)) "ULS" (by simp)]
    decide
  · rw [← natLog10_eq]
    decide

/-- C2 amended: for a non-empty list of `n` combinations,
`getNamedCombinations` pairs the i-th combination, in input order and
starting at index 0, with the name `prefix + str(i).zfill(w)` where the
padding width `w` is the program's `int(math.log(n, 10)) + 1` computed in
floating point; whenever that floating-point computation is exact — in
particular at n = 1 (width 1) and n = 10 (width 2), but not at n = 1000 —
the width equals `⌊log₁₀ n⌋ + 1` and every name suffix has exactly that
width. -/
theorem named_combinations_names {α : Type} (intLog10 : Nat → Nat)
    (combs : List α) (pfx : String) (h : 1 ≤ combs.length)
    (hexact : intLog10 combs.length = Nat.log 10 combs.length) :
    getNamedCombinations intLog10 combs pfx =
      combs.enum.map (fun ic =>
        (pfx ++ pyZfill (Nat.log 10 combs.length + 1) (pyStrNat ic.1), ic.2)) ∧
    ∀ i, i < combs.length →
      (pyZfill (Nat.log 10 combs.length + 1) (pyStrNat i)).length =
        Nat.log 10 combs.length + 1 := by
  refine ⟨?_, ?_⟩
  · rw [getNamedCombinations_eq_map intLog10 combs pfx (by omega), hexact]
  · intro i hi
    exact pyZfill_pyStrNat_length hi

/-- Witness for the amended C2 at a concrete input: one combination,
prefix `ULS`, named `ULS0` (suffix width 1), under the libm model (exact
at size 1). -/
theorem named_combinations_names_witness :
    1 ≤ (["G"] : List String).length ∧
      libmIntLog10 (["G"] : List String).length =
        Nat.log 10 (["G"] : List String).length ∧
      getNamedCombinations libmIntLog10 (["G"] : List String) "ULS" =
        [("ULS0", "G")] := by
  refine ⟨by decide, by rw [← natLog10_eq]; decide, ?_⟩
  rw [(named_combinations_names libmIntLog10 (["G"] : List String) "ULS"
    (by decide) (by rw [← natLog10_eq]; decide)).1]
  simp only [List.length_cons, List.length_nil, Nat.zero_add, Nat.log_one_right]
  decide

/-- C3: an empty combination list is named without fault (empty mapping, no
logarithm is computed) and exported without fault: only the header line is
written, then the sink is flushed (stdout) or closed (file) and no
exception escapes. -/
theorem empty_combination_list (intLog10 : Nat → Nat) (pfx : String)
    (toFile : Bool) :
    getNamedCombinations intLog10 ([] : List LoadCombination) pfx = [] ∧
    writeXCLoadCombinations intLog10 pfx [] = xcCombinationsHeader ∧
    writeXCLoadCombinationsTrace intLog10 none toFile pfx [] =
      ([SinkOp.write xcCombinationsHeader,
        if toFile then SinkOp.close else SinkOp.flush], false) := by
  refine ⟨rfl, rfl, ?_⟩
  cases toFile <;> rfl

/-- C5 counterexample: with every combination container empty, an
unrecognized situation makes `CombGenerator.getNamedCombinations` raise
`NameError` (the error-logging line references the unimported name `lmsg`),
so it does not log-and-return as claimed. -/
theorem unknown_situation_counterexample :
    CombGeneratorModel.getNamedCombinations ⟨[], [], [], [], [], []⟩
        libmIntLog10 "SLSUnknown" =
      Except.error "NameError: name lmsg is not defined" := rfl

/-- C5 amended: for every situation string other than the six recognized
ones, `CombGenerator.getNamedCombinations` raises `NameError` (the
error-logging call references the unimported `lmsg` and the undefined
`group`, and the locals `prefix`/`loadCombinations` are unbound), instead
of logging and returning stale named combinations. -/
theorem unknown_situation_raises (g : CombGeneratorModel)
    (intLog10 : Nat → Nat) (s : String)
    (h : s ∉ ["SLSRare", "SLSFrequent", "SLSQuasiPermanent", "ULSTransient",
      "ULSAccidental", "ULSSeismic"]) :
    CombGeneratorModel.getNamedCombinations g intLog10 s =
      Except.error "NameError: name lmsg is not defined" := by
  simp only [List.mem_cons, List.not_mem_nil, or_false, not_or] at h
  obtain ⟨h1, h2, h3, h4, h5, h6⟩ := h
  unfold CombGeneratorModel.getNamedCombinations
  rw [if_neg h1, if_neg h2, if_neg h3, if_neg h4, if_neg h5, if_neg h6]

/-- Witness for C5 at a concrete input. -/
theorem unknown_situation_raises_witness :
    "ULSRare" ∉ ["SLSRare", "SLSFrequent", "SLSQuasiPermanent", "ULSTransient",
        "ULSAccidental", "ULSSeismic"] ∧
      CombGeneratorModel.getNamedCombinations ⟨[], [], [], [], [], []⟩
          libmIntLog10 "ULSRare" =
        Except.error "NameError: name lmsg is not defined" :=
  ⟨by decide,
    unknown_situation_raises ⟨[], [], [], [], [], []⟩ libmIntLog10 "ULSRare"
      (by decide)⟩

/-- C6: each of the six recognized situations selects its combination
container and its fixed name prefix: `SLSR`, `SLSF`, `SLSQP`, `ULS`,
`ULSA`, `ULSS`. -/
theorem situation_prefixes (g : CombGeneratorModel) (intLog10 : Nat → Nat) :
    g.getNamedCombinations intLog10 "SLSRare" =
        Except.ok (getNamedCombinations intLog10 g.slsCharacteristic "SLSR") ∧
    g.getNamedCombinations intLog10 "SLSFrequent" =
        Except.ok (getNamedCombinations intLog10 g.slsFrequent "SLSF") ∧
    g.getNamedCombinations intLog10 "SLSQuasiPermanent" =
        Except.ok (getNamedCombinations intLog10 g.slsQuasiPermanent "SLSQP") ∧
    g.getNamedCombinations intLog10 "ULSTransient" =
        Except.ok (getNamedCombinations intLog10 g.ulsTransient "ULS") ∧
    g.getNamedCombinations intLog10 "ULSAccidental" =
        Except.ok (getNamedCombinations intLog10 g.ulsAccidental "ULSA") ∧
    g.getNamedCombinations intLog10 "ULSSeismic" =
        Except.ok (getNamedCombinations intLog10 g.ulsSeismic "ULSS") :=
  ⟨rfl, rfl, rfl, rfl, rfl, rfl⟩

theorem getLast?_cons_append_singleton {α : Type} (a x : α) (l : List α) :
    (a :: (l ++ [x])).getLast? = some x := by
  rw [← List.cons_append]
  exact List.getLast?_concat _

theorem emitWrites_none (start : Nat) (msgs : List String) :
    emitWrites none start msgs = (msgs.map SinkOp.write, false) := by
  induction msgs generalizing start with
  | nil => rfl
  | cons m ms ih => simp [emitWrites, ih]

theorem emitWrites_ops_are_writes (failAt : Option Nat) (msgs : List String) :
    ∀ start, ∀ op ∈ (emitWrites failAt start msgs).1, ∃ s, op = SinkOp.write s := by
  induction msgs with
  | nil => intro start op h; simp [emitWrites] at h
  | cons m ms ih =>
    intro start op h
    by_cases hf : failAt = some start
    · simp [emitWrites, hf] at h
    · simp only [emitWrites, if_neg hf] at h
      rcases List.mem_cons.mp h with h1 | h2
      · exact ⟨m, h1⟩
      · exact ih (start + 1) op h2

/-- C10: the file name derived from a combination expression is exactly the
subsequence of its alphanumeric characters in their original order, so it
never contains a star, plus sign, dot, or whitespace. -/
theorem filename_is_alnum_subsequence (s : String) :
    (getFileNameFromCombinationExpresion s).toList = s.toList.filter pyIsAlnum ∧
    (getFileNameFromCombinationExpresion s).toList.Sublist s.toList ∧
    ∀ c ∈ (getFileNameFromCombinationExpresion s).toList,
      pyIsAlnum c = true ∧ c ≠ '*' ∧ c ≠ '+' ∧ c ≠ '.' ∧ pyIsSpace c = false := by
  refine ⟨rfl, List.filter_sublist s.toList, ?_⟩
  intro c hc
  have h1 : pyIsAlnum c = true := (List.mem_filter.mp hc).2
  refine ⟨h1, ?_, ?_, ?_, ?_⟩
  · rintro rfl; exact absurd h1 (by decide)
  · rintro rfl; exact absurd h1 (by decide)
  · rintro rfl; exact absurd h1 (by decide)
  · cases hx : pyIsSpace c with
    | false => rfl
    | true =>
      exfalso
      have hc6 : ((((c = ' ' ∨ c = '\t') ∨ c = '\n') ∨ c = '\r') ∨ c = '\x0b') ∨
          c = '\x0c' := by
        simpa [pyIsSpace, Bool.or_eq_true, beq_iff_eq] using hx
      rcases hc6 with ((((rfl | rfl) | rfl) | rfl) | rfl) | rfl <;>
        exact absurd h1 (by decide)

/-- C8 counterexample: when the second `write` call raises (the first
combination line), the exception escapes `writeXCLoadCombinations` with the
file sink neither flushed nor closed — the source has no `try`/`finally`,
so the claimed close-before-propagation does not happen. -/
theorem export_close_counterexample :
    (writeXCLoadCombinationsTrace libmIntLog10 (some 1) true "ULS"
        [⟨"1.0*G"⟩]).2 = true ∧
      SinkOp.close ∉ (writeXCLoadCombinationsTrace libmIntLog10 (some 1) true
        "ULS" [⟨"1.0*G"⟩]).1 ∧
      SinkOp.flush ∉ (writeXCLoadCombinationsTrace libmIntLog10 (some 1) true
        "ULS" [⟨"1.0*G"⟩]).1 := by
  decide

/-- C8 amended: on the normal exit path (no write raises) the export ends by
flushing the stdout sink or closing the file sink; but on an exceptional
exit the error propagates with no flush and no close performed. -/
theorem export_resource_handling (intLog10 : Nat → Nat) (failAt : Option Nat)
    (toFile : Bool) (pfx : String) (combs : List LoadCombination) :
    ((writeXCLoadCombinationsTrace intLog10 none toFile pfx combs).2 = false ∧
      (writeXCLoadCombinationsTrace intLog10 none toFile pfx combs).1.getLast? =
        some (if toFile then SinkOp.close else SinkOp.flush)) ∧
    ((writeXCLoadCombinationsTrace intLog10 failAt toFile pfx combs).2 = true →
      SinkOp.close ∉
        (writeXCLoadCombinationsTrace intLog10 failAt toFile pfx combs).1 ∧
      SinkOp.flush ∉
        (writeXCLoadCombinationsTrace intLog10 failAt toFile pfx combs).1) := by
  constructor
  · simp only [writeXCLoadCombinationsTrace, emitWrites_none]
    cases toFile <;> simp [List.getLast?_concat, getLast?_cons_append_singleton]
  · intro hexc
    cases hr : (emitWrites failAt 0 (xcCombinationsHeader ::
        (getNamedCombinations intLog10 combs pfx).map
          (fun kv => xcCombinationLine kv.1 kv.2))).2 with
    | false =>
      exfalso
      simp only [writeXCLoadCombinationsTrace, hr] at hexc
      cases toFile <;> simp at hexc
    | true =>
      simp only [writeXCLoadCombinationsTrace, hr, if_true]
      constructor
      · intro hmem
        obtain ⟨s, hs⟩ := emitWrites_ops_are_writes failAt _ 0 _ hmem
        exact SinkOp.noConfusion hs
      · intro hmem
        obtain ⟨s, hs⟩ := emitWrites_ops_are_writes failAt _ 0 _ hmem
        exact SinkOp.noConfusion hs

/-- Witness for C8 at a concrete input: the sink's very first write raises,
the exception escapes and no close was performed. -/
theorem export_resource_handling_witness :
    (writeXCLoadCombinationsTrace libmIntLog10 (some 0) false "SLSR"
        ([] : List LoadCombination)).2 = true ∧
      SinkOp.close ∉ (writeXCLoadCombinationsTrace libmIntLog10 (some 0) false
        "SLSR" ([] : List LoadCombination)).1 :=
  ⟨by decide,
    ((export_resource_handling libmIntLog10 (some 0) false "SLSR" []).2
      (by decide)).1⟩

/-- The content of the header line, without its newline. -/
def xcCombinationsHeaderContent : String :=
  "combs= loadLoader.getLoadCombinations"

/-- The content of one combination statement line, without its newline. -/
def xcCombinationLineContent (key : String) (comb : LoadCombination) : String :=
  "comb= combs.newLoadCombination(" ++ "\"" ++ key ++ "\",\"" ++ comb.name ++ "\")"

theorem xcCombinationsHeader_eq :
    xcCombinationsHeader = xcCombinationsHeaderContent ++ "\n" := by decide

theorem xcCombinationLine_eq (key : String) (comb : LoadCombination) :
    xcCombinationLine key comb = xcCombinationLineContent key comb ++ "\n" := by
  apply String.ext
  unfold xcCombinationLine xcCombinationLineContent
  simp [String.data_append]

theorem data_foldl_append (l : List String) (a : String) :
    (l.foldl (fun r s => r ++ s) a).data = a.data ++ (l.map String.data).flatten := by
  induction l generalizing a with
  | nil => simp
  | cons s ss ih => simp [ih, String.data_append]

theorem data_join (l : List String) :
    (String.join l).data = (l.map String.data).flatten := by
  unfold String.join
  rw [data_foldl_append]
  rfl

/-- Splitting on the separator a flattening of chunks each terminated by the
separator recovers the chunks, plus the empty chunk after the final
separator. -/
theorem splitOnChar_flatten_terminated (sep : Char) :
    ∀ (chunks : List (List Char)), (∀ ch ∈ chunks, sep ∉ ch) →
      splitOnChar sep ((chunks.map (fun ch => ch ++ [sep])).flatten) =
        chunks ++ [[]]
  | [], _ => rfl
  | ch :: chs, h => by
    simp only [List.map_cons, List.flatten_cons, List.append_assoc,
      List.singleton_append]
    rw [splitOnChar_append (h ch (List.mem_cons_self ch chs))]
    rw [splitOnChar_flatten_terminated sep chs
      (fun x hx => h x (List.mem_cons_of_mem ch hx))]
    rfl

theorem lineContent_no_newline {key : String} {comb : LoadCombination}
    (hk : '\n' ∉ key.data) (hn : '\n' ∉ comb.name.data) :
    '\n' ∉ (xcCombinationLineContent key comb).data := by
  unfold xcCombinationLineContent
  simp only [String.data_append, List.mem_append, not_or]
  exact ⟨⟨⟨⟨⟨by decide, by decide⟩, hk⟩, by decide⟩, hn⟩, by decide⟩

theorem natDigitsFuel_chars {fuel n : Nat} :
    ∀ c ∈ natDigitsFuel fuel n, ∃ d, d < 10 ∧ c = Nat.digitChar d := by
  induction fuel generalizing n with
  | zero => intro c hc; simp [natDigitsFuel] at hc
  | succ fuel ih =>
    intro c hc
    simp only [natDigitsFuel] at hc
    by_cases h10 : n < 10
    · rw [if_pos h10] at hc
      simp only [List.mem_singleton] at hc
      exact ⟨n, h10, hc⟩
    · rw [if_neg h10] at hc
      rcases List.mem_append.mp hc with h1 | h2
      · exact ih c h1
      · simp only [List.mem_singleton] at h2
        exact ⟨n % 10, Nat.mod_lt n (by omega), h2⟩

theorem no_newline_in_pyZfill (w i : Nat) :
    '\n' ∉ (pyZfill w (pyStrNat i)).data := by
  intro hmem
  have h1 : (pyZfill w (pyStrNat i)).toList =
      List.replicate (w - (natDigits i).length) '0' ++ natDigits i :=
    toList_pyZfill_pyStrNat w i
  rw [show (pyZfill w (pyStrNat i)).toList = (pyZfill w (pyStrNat i)).data from rfl]
    at h1
  rw [h1] at hmem
  rcases List.mem_append.mp hmem with h2 | h3
  · have := List.eq_of_mem_replicate h2
    exact absurd this (by decide)
  · obtain ⟨d, hd, he⟩ := natDigitsFuel_chars '\n' h3
    interval_cases d <;> exact absurd he (by decide)

/-- C7: the export output is the single header line followed by exactly one
statement line per named combination, in dictionary order, each of the form
`comb= combs.newLoadCombination("<name>","<expression>")` with the name as
first argument and the expression as second: splitting the output on
newlines yields precisely these line contents (plus the empty chunk after
the final newline). -/
theorem export_writes_one_line_per_combination (intLog10 : Nat → Nat)
    (pfx : String) (combs : List LoadCombination)
    (hp : '\n' ∉ pfx.data) (hc : ∀ c ∈ combs, '\n' ∉ c.name.data) :
    splitOnChar '\n' (writeXCLoadCombinations intLog10 pfx combs).data =
      (xcCombinationsHeaderContent.data ::
        (getNamedCombinations intLog10 combs pfx).map (fun kv =>
          (xcCombinationLineContent kv.1 kv.2).data)) ++ [[]] := by
  have hdata : (writeXCLoadCombinations intLog10 pfx combs).data =
      ((xcCombinationsHeaderContent.data ::
        (getNamedCombinations intLog10 combs pfx).map (fun kv =>
          (xcCombinationLineContent kv.1 kv.2).data)).map
        (fun ch => ch ++ ['\n'])).flatten := by
    unfold writeXCLoadCombinations
    rw [String.data_append, data_join, xcCombinationsHeader_eq, String.data_append]
    simp only [List.map_map, List.map_cons, List.flatten_cons, Function.comp]
    congr 1
    congr 1
    apply List.map_congr_left
    intro kv _
    show (xcCombinationLine kv.1 kv.2).data =
      (xcCombinationLineContent kv.1 kv.2).data ++ ['\n']
    rw [xcCombinationLine_eq, String.data_append]
  rw [hdata]
  apply splitOnChar_flatten_terminated
  intro ch hch
  rcases List.mem_cons.mp hch with h1 | h2
  · subst h1; decide
  · obtain ⟨kv, hkv, rfl⟩ := List.mem_map.mp h2
    rcases Nat.eq_zero_or_pos combs.length with hlen | hlen
    · rw [List.length_eq_zero.mp hlen] at hkv
      simp [getNamedCombinations] at hkv
    · rw [getNamedCombinations_eq_map intLog10 combs pfx hlen] at hkv
      obtain ⟨ic, hic, rfl⟩ := List.mem_map.mp hkv
      apply lineContent_no_newline
      · intro hmem
        rw [String.data_append] at hmem
        rcases List.mem_append.mp hmem with hb | hb
        · exact hp hb
        · exact no_newline_in_pyZfill (intLog10 combs.length + 1) ic.1 hb
      · exact hc ic.2 (List.snd_mem_of_mem_enum hic)

/-- Well-formedness of an action name for the render-then-parse round trip:
no `*` (the factor separator), no `+` (the addend separator), and no
trailing whitespace (which `strip()` would remove). -/
def goodKey (k : String) : Bool :=
  decide ('*' ∉ k.data) && decide ('+' ∉ k.data) &&
    (match k.data.getLast? with
     | none => true
     | some c => !pyIsSpace c)

/-- Well-formedness of a factor's rendering: `str(factor)` must contain no
`*` or `+` and must not begin with whitespace.  (Python floats of ordinary
magnitude satisfy this; `str(1e16) = '1e+16'` does not.) -/
def goodFactorStr {α : Type} (ops : FloatOps α) (v : α) : Bool :=
  decide ('*' ∉ (ops.fstr v).data) && decide ('+' ∉ (ops.fstr v).data) &&
    (match (ops.fstr v).data.head? with
     | none => true
     | some c => !pyIsSpace c)

theorem goodKey_spec {k : String} (h : goodKey k = true) :
    '*' ∉ k.data ∧ '+' ∉ k.data ∧
      ∀ c, k.data.getLast? = some c → pyIsSpace c = false := by
  unfold goodKey at h
  simp only [Bool.and_eq_true] at h
  obtain ⟨⟨h1, h2⟩, h3⟩ := h
  refine ⟨of_decide_eq_true h1, of_decide_eq_true h2, ?_⟩
  intro c hc
  rw [hc] at h3
  simpa using h3

theorem goodFactorStr_spec {α : Type} {ops : FloatOps α} {v : α}
    (h : goodFactorStr ops v = true) :
    '*' ∉ (ops.fstr v).data ∧ '+' ∉ (ops.fstr v).data ∧
      ∀ c, (ops.fstr v).data.head? = some c → pyIsSpace c = false := by
  unfold goodFactorStr at h
  simp only [Bool.and_eq_true] at h
  obtain ⟨⟨h1, h2⟩, h3⟩ := h
  refine ⟨of_decide_eq_true h1, of_decide_eq_true h2, ?_⟩
  intro c hc
  rw [hc] at h3
  simpa using h3

theorem addend_data {α : Type} (ops : FloatOps α) (k : String) (v : α) :
    (ops.fstr v ++ "*" ++ k).data = (ops.fstr v).data ++ '*' :: k.data := by
  rw [String.data_append, String.data_append, List.append_assoc]
  rfl

theorem joinSep_glue (sep : Char) (a b : List Char) (l : List (List Char)) :
    joinSep sep ((a ++ sep :: b) :: l) = a ++ sep :: joinSep sep (b :: l) := by
  cases l with
  | nil => rfl
  | cons z zs =>
    show (a ++ sep :: b) ++ sep :: joinSep sep (z :: zs) =
      a ++ sep :: joinSep sep (b :: z :: zs)
    rw [List.append_assoc]
    rfl

theorem foldl_plus_data (rest : List String) (t : String) :
    (rest.foldl (fun retval s => retval ++ "+" ++ s) t).data =
      joinSep '+' (t.data :: rest.map String.data) := by
  induction rest generalizing t with
  | nil => rfl
  | cons s ss ih =>
    rw [List.foldl_cons, ih]
    have h1 : (t ++ "+" ++ s).data = t.data ++ '+' :: s.data := by
      rw [String.data_append, String.data_append, List.append_assoc]
      rfl
    rw [h1, List.map_cons, joinSep_glue]
    rfl

/-- The rendered expression, at character level: the addends joined by `+`. -/
theorem getCombinationExpr_data {α : Type} (ops : FloatOps α)
    (d : List (String × α)) :
    (getCombinationExpr ops d).data =
      joinSep '+' (d.map (fun kv => (ops.fstr kv.2 ++ "*" ++ kv.1).data)) := by
  unfold getCombinationExpr
  cases d with
  | nil => rfl
  | cons kv d' =>
    rw [List.map_cons]
    show (List.foldl (fun retval s => retval ++ "+" ++ s)
      (ops.fstr kv.2 ++ "*" ++ kv.1)
      (d'.map (fun kv => ops.fstr kv.2 ++ "*" ++ kv.1))).data = _
    rw [foldl_plus_data, List.map_map, List.map_cons]
    rfl

theorem splitOnChar_joinSep (sep : Char) :
    ∀ (chunks : List (List Char)), chunks ≠ [] → (∀ ch ∈ chunks, sep ∉ ch) →
      splitOnChar sep (joinSep sep chunks) = chunks
  | [], h, _ => absurd rfl h
  | [x], _, h => by
    show splitOnChar sep x = [x]
    exact splitOnChar_of_not_mem (h x (List.mem_cons_self x []))
  | x :: y :: xs, _, h => by
    show splitOnChar sep (x ++ sep :: joinSep sep (y :: xs)) = x :: y :: xs
    rw [splitOnChar_append (h x (List.mem_cons_self x (y :: xs)))]
    rw [splitOnChar_joinSep sep (y :: xs) (by simp)
      (fun z hz => h z (List.mem_cons_of_mem x hz))]

theorem joinSep_cons_length {sep : Char} {p : List Char} (ps : List (List Char))
    (hp : 0 < p.length) : 0 < (joinSep sep (p :: ps)).length := by
  cases ps with
  | nil => exact hp
  | cons z zs =>
    show 0 < (p ++ sep :: joinSep sep (z :: zs)).length
    rw [List.length_append]
    omega

/-- `strip()` leaves a rendered addend unchanged: it starts with the factor
(or at `*`) and ends with the key (or at `*`), none of which is whitespace. -/
theorem addend_strip_id {α : Type} (ops : FloatOps α) (k : String) (v : α)
    (hk : goodKey k = true) (hv : goodFactorStr ops v = true) :
    pyStrip (ops.fstr v ++ "*" ++ k) = ops.fstr v ++ "*" ++ k := by
  obtain ⟨-, -, hk3⟩ := goodKey_spec hk
  obtain ⟨-, -, hv3⟩ := goodFactorStr_spec hv
  apply String.ext
  show pyStripList (ops.fstr v ++ "*" ++ k).data = (ops.fstr v ++ "*" ++ k).data
  rw [addend_data]
  apply pyStripList_eq_self
  · intro c hc
    rw [List.head?_append] at hc
    cases hf : (ops.fstr v).data.head? with
    | some c' =>
      rw [hf] at hc
      have hc2 : c' = c := Option.some.inj hc
      subst hc2
      exact hv3 c' hf
    | none =>
      rw [hf, Option.none_or] at hc
      have hc2 : '*' = c := Option.some.inj hc
      subst hc2
      decide
  · intro c hc
    rw [List.getLast?_append] at hc
    cases hb : k.data with
    | nil =>
      rw [hb, List.getLast?_singleton] at hc
      have hc2 : '*' = c := Option.some.inj hc
      subst hc2
      decide
    | cons b bs =>
      rw [hb, List.getLast?_cons_cons] at hc
      cases hgl : (b :: bs : List Char).getLast? with
      | none =>
        rw [List.getLast?_eq_none_iff] at hgl
        exact absurd hgl (by simp)
      | some c' =>
        rw [hgl] at hc
        have hc2 : c' = c := Option.some.inj hc
        subst hc2
        exact hk3 c' (by rw [hb]; exact hgl)

theorem pySplit_addend {α : Type} (ops : FloatOps α) (k : String) (v : α)
    (hk : goodKey k = true) (hv : goodFactorStr ops v = true) :
    pySplit '*' (ops.fstr v ++ "*" ++ k) = [ops.fstr v, k] := by
  unfold pySplit
  rw [show (ops.fstr v ++ "*" ++ k).toList = (ops.fstr v).data ++ '*' :: k.data
    from addend_data ops k v]
  rw [splitOnChar_append (goodFactorStr_spec hv).1]
  rw [splitOnChar_of_not_mem (goodKey_spec hk).1]
  rfl

theorem parseAddend_eval {α : Type} (ops : FloatOps α) (acc : List (String × α))
    (k : String) (v : α) (hk : goodKey k = true) (hv : goodFactorStr ops v = true)
    (hp : ops.fparse (ops.fstr v) = some v) :
    parseAddend ops acc (ops.fstr v ++ "*" ++ k) = some (dictInsert acc k v) := by
  unfold parseAddend
  rw [addend_strip_id ops k v hk hv, pySplit_addend ops k v hk hv]
  show (match ops.fparse (ops.fstr v) with
    | some v2 => some (dictInsert acc k v2)
    | none => none) = some (dictInsert acc k v)
  rw [hp]

/-- The parsing fold of `getCombinationDict` consumes the rendered addends
one by one, appending each (key, value) pair to the accumulator. -/
theorem parse_addend_fold {α : Type} (ops : FloatOps α) :
    ∀ (d acc : List (String × α)),
      (∀ kv ∈ d, goodKey kv.1 = true) →
      (∀ kv ∈ d, goodFactorStr ops kv.2 = true) →
      (∀ kv ∈ d, ops.fparse (ops.fstr kv.2) = some kv.2) →
      (d.map Prod.fst).Nodup →
      (∀ kv ∈ acc, ∀ kv' ∈ d, kv.1 ≠ kv'.1) →
      (d.map (fun kv => ops.fstr kv.2 ++ "*" ++ kv.1)).foldlM (parseAddend ops)
        acc = some (acc ++ d)
  | [], acc, _, _, _, _, _ => by simp
  | kv :: d', acc, hk, hv, hp, hnd, hfresh => by
    have hkkv := hk kv (List.mem_cons_self kv d')
    have hvkv := hv kv (List.mem_cons_self kv d')
    rw [List.map_cons, List.foldlM_cons]
    rw [parseAddend_eval ops acc kv.1 kv.2 hkkv hvkv
      (hp kv (List.mem_cons_self kv d'))]
    show (d'.map (fun kv => ops.fstr kv.2 ++ "*" ++ kv.1)).foldlM (parseAddend ops)
      (dictInsert acc kv.1 kv.2) = some (acc ++ kv :: d')
    have hfreshhd : ∀ kv' ∈ acc, kv'.1 ≠ kv.1 := fun kv' hkv' =>
      hfresh kv' hkv' kv (List.mem_cons_self kv d')
    rw [dictInsert_of_fresh hfreshhd]
    have hnd' : (d'.map Prod.fst).Nodup :=
      (List.nodup_cons.mp (by simpa using hnd)).2
    have hhd : kv.1 ∉ d'.map Prod.fst :=
      (List.nodup_cons.mp (by simpa using hnd)).1
    have hrec := parse_addend_fold ops d' (acc ++ [(kv.1, kv.2)])
      (fun x hx => hk x (List.mem_cons_of_mem kv hx))
      (fun x hx => hv x (List.mem_cons_of_mem kv hx))
      (fun x hx => hp x (List.mem_cons_of_mem kv hx))
      hnd' ?fresh
    case fresh =>
      intro x hx y hy
      rcases List.mem_append.mp hx with h1 | h2
      · exact hfresh x h1 y (List.mem_cons_of_mem kv hy)
      · simp only [List.mem_singleton] at h2
        subst h2
        intro he
        exact hhd (he ▸ List.mem_map_of_mem Prod.fst hy)
    rw [hrec]
    simp

/-- Rendering a dictionary with well-formed keys and factor strings and
parsing the result back returns exactly the dictionary. -/
theorem renderParse_roundtrip {α : Type} (ops : FloatOps α)
    (d : List (String × α))
    (hk : ∀ kv ∈ d, goodKey kv.1 = true)
    (hv : ∀ kv ∈ d, goodFactorStr ops kv.2 = true)
    (hp : ∀ kv ∈ d, ops.fparse (ops.fstr kv.2) = some kv.2)
    (hnd : (d.map Prod.fst).Nodup) :
    getCombinationDict ops (getCombinationExpr ops d) = some d := by
  cases d with
  | nil => rfl
  | cons kv d' =>
    have hpieces : ∀ p ∈ (kv :: d').map
        (fun kv => (ops.fstr kv.2 ++ "*" ++ kv.1).data), '+' ∉ p := by
      intro p hp2
      obtain ⟨kv', hkv', rfl⟩ := List.mem_map.mp hp2
      rw [addend_data]
      intro hmem
      rcases List.mem_append.mp hmem with h1 | h2
      · exact (goodFactorStr_spec (hv kv' hkv')).2.1 h1
      · rcases List.mem_cons.mp h2 with h3 | h4
        · exact absurd h3 (by decide)
        · exact (goodKey_spec (hk kv' hkv')).2.1 h4
    have hdata : (getCombinationExpr ops (kv :: d')).data =
        joinSep '+' ((kv :: d').map (fun kv => (ops.fstr kv.2 ++ "*" ++ kv.1).data)) :=
      getCombinationExpr_data ops (kv :: d')
    have hlen : 0 < (getCombinationExpr ops (kv :: d')).length := by
      show 0 < (getCombinationExpr ops (kv :: d')).data.length
      rw [hdata, List.map_cons]
      apply joinSep_cons_length
      rw [addend_data]
      simp
    unfold getCombinationDict
    rw [if_pos hlen]
    have hsplit : pySplit '+' (getCombinationExpr ops (kv :: d')) =
        (kv :: d').map (fun kv => ops.fstr kv.2 ++ "*" ++ kv.1) := by
      unfold pySplit
      rw [show (getCombinationExpr ops (kv :: d')).toList =
        (getCombinationExpr ops (kv :: d')).data from rfl, hdata]
      rw [splitOnChar_joinSep '+' _ (by simp) hpieces]
      rw [List.map_map]
      apply List.map_congr_left
      intro kv' _
      rfl
    rw [hsplit]
    exact (parse_addend_fold ops (kv :: d') [] hk hv hp hnd (by simp)).trans
      (by simp)

/-- C1 counterexample: for the dictionary `{'A*B': 1.0}` the rendered
expression is `"1.0*A*B"`, whose single addend splits into three pieces at
`*`, so parsing raises `ValueError` instead of returning the dictionary;
the round trip fails for action names containing `*`. -/
theorem roundtrip_counterexample :
    getCombinationDict litFloatOps
        (getCombinationExpr litFloatOps [("A*B", "1.0")]) ≠
      some [("A*B", "1.0")] := by decide

/-- C1 amended: the round trip
`getCombinationDict (getCombinationExpr d) = d` holds for every dictionary
whose action names contain no `*` or `+` and do not end in whitespace, and
whose factors render (via `str`) without `*` or `+` and without leading
whitespace and parse back (via `float`) to themselves; the empty dictionary
renders to the empty string and parses back to the empty dictionary. -/
theorem roundtrip_well_formed {α : Type} (ops : FloatOps α)
    (d : List (String × α))
    (hk : ∀ kv ∈ d, goodKey kv.1 = true)
    (hv : ∀ kv ∈ d, goodFactorStr ops kv.2 = true)
    (hp : ∀ kv ∈ d, ops.fparse (ops.fstr kv.2) = some kv.2)
    (hnd : (d.map Prod.fst).Nodup) :
    getCombinationDict ops (getCombinationExpr ops d) = some d ∧
      getCombinationExpr ops ([] : List (String × α)) = "" ∧
      getCombinationDict ops "" = some ([] : List (String × α)) :=
  ⟨renderParse_roundtrip ops d hk hv hp hnd, rfl, rfl⟩

/-- Witness for the amended C1 at the spec's example dictionary
`{'G1': 1.0, 'Qwind': 1.35}`. -/
theorem roundtrip_well_formed_witness :
    getCombinationDict litFloatOps
        (getCombinationExpr litFloatOps [("G1", "1.0"), ("Qwind", "1.35")]) =
      some [("G1", "1.0"), ("Qwind", "1.35")] :=
  (roundtrip_well_formed litFloatOps [("G1", "1.0"), ("Qwind", "1.35")]
    (by decide) (by decide) (by decide) (by decide)).1

theorem dictGet_cons {α : Type} (kv : String × α) (d : List (String × α))
    (k : String) :
    dictGet (kv :: d) k = if kv.1 = k then some kv.2 else dictGet d k := by
  unfold dictGet
  rw [List.find?_cons]
  by_cases h : kv.1 = k
  · simp [h]
  · simp [h]

theorem dictGet_append {α : Type} (d1 d2 : List (String × α)) (k : String) :
    dictGet (d1 ++ d2) k = (dictGet d1 k).or (dictGet d2 k) := by
  unfold dictGet
  rw [List.find?_append]
  cases List.find? (fun kv => kv.1 = k) d1 <;> simp [Option.or]

theorem dictGet_eq_none {α : Type} {d : List (String × α)} {k : String}
    (h : k ∉ d.map Prod.fst) : dictGet d k = none := by
  unfold dictGet
  rw [List.find?_eq_none.mpr]
  · rfl
  · intro kv hkv
    simp only [decide_eq_true_eq]
    intro he
    exact h (he ▸ List.mem_map_of_mem Prod.fst hkv)

theorem dictInsert_forall {α : Type} {P : String × α → Prop}
    {d : List (String × α)} {k : String} {v : α}
    (hd : ∀ kv ∈ d, P kv) (hkv : P (k, v)) : ∀ kv ∈ dictInsert d k v, P kv := by
  intro kv hkv2
  unfold dictInsert at hkv2
  by_cases h : d.any (fun kv => kv.1 = k) = true
  · rw [if_pos h] at hkv2
    obtain ⟨kv', hkv', he⟩ := List.mem_map.mp hkv2
    by_cases h2 : kv'.1 = k
    · rw [if_pos h2] at he
      subst he
      exact hkv
    · rw [if_neg h2] at he
      subst he
      exact hd kv' hkv'
  · rw [if_neg h] at hkv2
    rcases List.mem_append.mp hkv2 with h1 | h2
    · exact hd kv h1
    · simp only [List.mem_singleton] at h2
      subst h2
      exact hkv

theorem mem_of_mem_pyStripList {l : List Char} {c : Char}
    (h : c ∈ pyStripList l) : c ∈ l := by
  unfold pyStripList at h
  rw [List.mem_reverse] at h
  have h2 := List.Sublist.mem h (List.dropWhile_sublist pyIsSpace)
  rw [List.mem_reverse] at h2
  exact List.Sublist.mem h2 (List.dropWhile_sublist pyIsSpace)

theorem goodKey_intro {k : String} (h1 : '*' ∉ k.data) (h2 : '+' ∉ k.data)
    (h3 : ∀ c, k.data.getLast? = some c → pyIsSpace c = false) :
    goodKey k = true := by
  unfold goodKey
  simp only [Bool.and_eq_true]
  refine ⟨⟨decide_eq_true h1, decide_eq_true h2⟩, ?_⟩
  cases hgl : k.data.getLast? with
  | none => rfl
  | some c => simpa using h3 c hgl

/-- An action name produced by a successful parsing step is well formed:
it comes from splitting a stripped, `+`-free piece at `*`. -/
theorem parsed_action_good {p f a : String}
    (hp : '+' ∉ p.data) (hsplit : pySplit '*' (pyStrip p) = [f, a]) :
    goodKey a = true := by
  unfold pySplit at hsplit
  have hstrip : (pyStrip p).toList = pyStripList p.data := rfl
  rw [hstrip] at hsplit
  have hL : splitOnChar '*' (pyStripList p.data) = [f.data, a.data] := by
    cases hx : splitOnChar '*' (pyStripList p.data) with
    | nil => exact absurd hx (splitOnChar_ne_nil _ _)
    | cons q1 qs =>
      rw [hx] at hsplit
      cases qs with
      | nil => simp at hsplit
      | cons q2 qs2 =>
        cases qs2 with
        | nil =>
          simp only [List.map_cons, List.map_nil, List.cons.injEq, and_true]
            at hsplit
          obtain ⟨hf, ha⟩ := hsplit
          rw [← hf, ← ha]
        | cons _ _ => simp at hsplit
  have hmem_a : a.data ∈ splitOnChar '*' (pyStripList p.data) := by
    rw [hL]
    simp
  have hjoin : pyStripList p.data = f.data ++ '*' :: a.data := by
    have := joinSep_splitOnChar '*' (pyStripList p.data)
    rw [hL] at this
    rw [← this]
    rfl
  apply goodKey_intro
  · exact not_mem_of_mem_splitOnChar hmem_a
  · intro hc
    apply hp
    apply mem_of_mem_pyStripList (l := p.data)
    rw [hjoin]
    exact List.mem_append.mpr (Or.inr (List.mem_cons_of_mem _ hc))
  · intro c hc
    apply pyStripList_getLast (l := p.data)
    rw [hjoin, List.getLast?_append]
    cases hb : a.data with
    | nil => rw [hb] at hc; simp at hc
    | cons b bs =>
      rw [hb] at hc
      rw [List.getLast?_cons_cons, hc]
      rfl

/-- Inversion of a successful `parseAddend` step. -/
theorem parseAddend_some {α : Type} {ops : FloatOps α}
    {acc acc' : List (String × α)} {l : String}
    (h : parseAddend ops acc l = some acc') :
    ∃ f a v, pySplit '*' (pyStrip l) = [f, a] ∧ ops.fparse f = some v ∧
      acc' = dictInsert acc a v := by
  unfold parseAddend at h
  cases hsplit : pySplit '*' (pyStrip l) with
  | nil => rw [hsplit] at h; exact absurd h (by simp)
  | cons f rest =>
    cases rest with
    | nil => rw [hsplit] at h; exact absurd h (by simp)
    | cons a rest2 =>
      cases rest2 with
      | cons x xs => rw [hsplit] at h; exact absurd h (by simp)
      | nil =>
        rw [hsplit] at h
        have h2 : (match ops.fparse f with
          | some v => some (dictInsert acc a v)
          | none => none) = some acc' := h
        cases hparse : ops.fparse f with
        | none => rw [hparse] at h2; exact absurd h2 (by simp)
        | some v =>
          rw [hparse] at h2
          exact ⟨f, a, v, rfl, hparse, (Option.some.inj h2).symm⟩

/-- Invariant of the parsing fold: all stored keys are well formed and the
key list stays duplicate-free. -/
theorem parse_fold_invariant {α : Type} (ops : FloatOps α) :
    ∀ (pieces : List String) (acc d : List (String × α)),
      (∀ p ∈ pieces, '+' ∉ p.data) →
      (∀ kv ∈ acc, goodKey kv.1 = true) →
      (dictKeys acc).Nodup →
      pieces.foldlM (parseAddend ops) acc = some d →
      (∀ kv ∈ d, goodKey kv.1 = true) ∧ (dictKeys d).Nodup
  | [], acc, d, _, hacc, hnd, heq => by
    have h2 : acc = d := by
      have h3 : (some acc : Option (List (String × α))) = some d := heq
      exact Option.some.inj h3
    subst h2
    exact ⟨hacc, hnd⟩
  | p :: ps, acc, d, hps, hacc, hnd, heq => by
    rw [List.foldlM_cons] at heq
    cases hstep : parseAddend ops acc p with
    | none => rw [hstep] at heq; exact absurd heq (by simp)
    | some acc' =>
      rw [hstep] at heq
      have heq2 : ps.foldlM (parseAddend ops) acc' = some d := heq
      obtain ⟨f, a, v, hsplit, -, rfl⟩ := parseAddend_some hstep
      have hgood : goodKey a = true :=
        parsed_action_good (hps p (List.mem_cons_self p ps)) hsplit
      exact parse_fold_invariant ops ps (dictInsert acc a v) d
        (fun q hq => hps q (List.mem_cons_of_mem p hq))
        (dictInsert_forall hacc hgood)
        (dictInsert_nodup a v hnd) heq2

/-- A successfully parsed combination has well-formed, duplicate-free keys. -/
theorem getCombinationDict_keys_good {α : Type} {ops : FloatOps α} {s : String}
    {d : List (String × α)} (h : getCombinationDict ops s = some d) :
    (∀ kv ∈ d, goodKey kv.1 = true) ∧ (dictKeys d).Nodup := by
  unfold getCombinationDict at h
  by_cases hlen : 0 < s.length
  · rw [if_pos hlen] at h
    apply parse_fold_invariant ops (pySplit '+' s) [] d ?hp (by simp)
      (by simp [dictKeys]) h
    case hp =>
      intro p hp2
      unfold pySplit at hp2
      obtain ⟨q, hq, rfl⟩ := List.mem_map.mp hp2
      show '+' ∉ q
      exact not_mem_of_mem_splitOnChar hq
  · rw [if_neg hlen] at h
    have h2 : ([] : List (String × α)) = d := Option.some.inj h
    subst h2
    exact ⟨by simp, by simp [dictKeys]⟩

theorem intercalate_go_eq : ∀ (rest : List String) (acc : String),
    String.intercalate.go acc "+" rest =
      rest.foldl (fun r s => r ++ "+" ++ s) acc
  | [], _ => rfl
  | a :: as, acc => by
    show String.intercalate.go (acc ++ "+" ++ a) "+" as = _
    rw [List.foldl_cons]
    exact intercalate_go_eq as (acc ++ "+" ++ a)

theorem getCombinationExpr_eq_intercalate {α : Type} (ops : FloatOps α)
    (d : List (String × α)) :
    getCombinationExpr ops d =
      String.intercalate "+" (d.map (fun kv => ops.fstr kv.2 ++ "*" ++ kv.1)) := by
  unfold getCombinationExpr
  cases hd : d.map (fun kv => ops.fstr kv.2 ++ "*" ++ kv.1) with
  | nil => rfl
  | cons t rest =>
    show rest.foldl (fun retval s => retval ++ "+" ++ s) t =
      String.intercalate "+" (t :: rest)
    rw [show String.intercalate "+" (t :: rest) =
      String.intercalate.go t "+" rest from rfl]
    rw [intercalate_go_eq]

/-- The partitioning fold of `splitCombination` separates the addends of the
entries whose key is among `loads` from the rest, keeping order. -/
theorem partition_fold {α : Type} (ops : FloatOps α) (loads : List String) :
    ∀ (d : List (String × α)) (acc1 acc2 : List String),
      d.foldl (fun (acc : List String × List String) kv =>
        if loads.contains kv.1 then
          (acc.1 ++ [ops.fstr kv.2 ++ "*" ++ kv.1], acc.2)
        else (acc.1, acc.2 ++ [ops.fstr kv.2 ++ "*" ++ kv.1])) (acc1, acc2) =
      (acc1 ++ (d.filter (fun kv => loads.contains kv.1)).map
          (fun kv => ops.fstr kv.2 ++ "*" ++ kv.1),
        acc2 ++ (d.filter (fun kv => !loads.contains kv.1)).map
          (fun kv => ops.fstr kv.2 ++ "*" ++ kv.1))
  | [], acc1, acc2 => by simp
  | kv :: d', acc1, acc2 => by
    rw [List.foldl_cons]
    by_cases hc : loads.contains kv.1
    · rw [if_pos hc, partition_fold ops loads d'
        (acc1 ++ [ops.fstr kv.2 ++ "*" ++ kv.1]) acc2]
      rw [List.filter_cons, List.filter_cons, if_pos hc,
        if_neg (by rw [hc]; simp)]
      simp [List.append_assoc]
    · have hcf : loads.contains kv.1 = false := by
        cases hx : loads.contains kv.1
        · rfl
        · exact absurd hx hc
      rw [if_neg hc, partition_fold ops loads d'
        acc1 (acc2 ++ [ops.fstr kv.2 ++ "*" ++ kv.1])]
      rw [List.filter_cons, List.filter_cons, if_neg (by rw [hcf]; simp),
        if_pos (by rw [hcf]; simp)]
      simp [List.append_assoc]

/-- Merging the two disjoint halves of a key-partitioned dictionary answers
every lookup exactly as the original dictionary does. -/
theorem dictGet_filter_partition {α : Type} (P : String × α → Bool) :
    ∀ (d : List (String × α)), (d.map Prod.fst).Nodup →
      ∀ k, dictGet (d.filter P ++ d.filter (fun kv => !P kv)) k = dictGet d k
  | [], _, _ => rfl
  | kv :: d', hnd, k => by
    rw [List.map_cons] at hnd
    have hhd : kv.1 ∉ d'.map Prod.fst := (List.nodup_cons.mp hnd).1
    have hnd' : (d'.map Prod.fst).Nodup := (List.nodup_cons.mp hnd).2
    rw [List.filter_cons, List.filter_cons]
    by_cases hP : P kv = true
    · rw [if_pos hP, if_neg (by simp [hP])]
      rw [List.cons_append, dictGet_cons, dictGet_cons]
      by_cases hk : kv.1 = k
      · rw [if_pos hk, if_pos hk]
      · rw [if_neg hk, if_neg hk]
        exact dictGet_filter_partition P d' hnd' k
    · have hPf : P kv = false := by
        cases hx : P kv
        · rfl
        · exact absurd hx hP
      rw [if_neg (by simp [hPf]), if_pos (by simp [hPf])]
      by_cases hk : kv.1 = k
      · have h1 : dictGet (d'.filter P) k = none := by
          apply dictGet_eq_none
          intro hmem
          apply hhd
          rw [hk]
          obtain ⟨kv', hkv', he⟩ := List.mem_map.mp hmem
          exact he ▸ List.mem_map_of_mem Prod.fst (List.mem_of_mem_filter hkv')
        rw [dictGet_append, h1, Option.none_or, dictGet_cons, if_pos hk,
          dictGet_cons, if_pos hk]
      · have hL : dictGet (d'.filter P ++ kv :: d'.filter (fun kv => !P kv)) k
            = dictGet (d'.filter P ++ d'.filter (fun kv => !P kv)) k := by
          rw [dictGet_append, dictGet_append, dictGet_cons, if_neg hk]
        rw [hL, dictGet_cons, if_neg hk]
        exact dictGet_filter_partition P d' hnd' k

theorem splitCombination_eq {α : Type} (ops : FloatOps α) (s : String)
    (d : List (String × α)) (loads : List String)
    (hparse : getCombinationDict ops s = some d) :
    splitCombination ops s loads =
      some (getCombinationExpr ops (d.filter (fun kv => loads.contains kv.1)),
        getCombinationExpr ops (d.filter (fun kv => !loads.contains kv.1))) := by
  unfold splitCombination
  rw [hparse]
  show some (String.intercalate "+" (d.foldl
      (fun (acc : List String × List String) kv =>
        if loads.contains kv.1 then
          (acc.1 ++ [ops.fstr kv.2 ++ "*" ++ kv.1], acc.2)
        else (acc.1, acc.2 ++ [ops.fstr kv.2 ++ "*" ++ kv.1])) ([], [])).1,
    String.intercalate "+" (d.foldl
      (fun (acc : List String × List String) kv =>
        if loads.contains kv.1 then
          (acc.1 ++ [ops.fstr kv.2 ++ "*" ++ kv.1], acc.2)
        else (acc.1, acc.2 ++ [ops.fstr kv.2 ++ "*" ++ kv.1])) ([], [])).2) = _
  rw [partition_fold ops loads d [] []]
  rw [getCombinationExpr_eq_intercalate ops
    (d.filter (fun kv => loads.contains kv.1))]
  rw [getCombinationExpr_eq_intercalate ops
    (d.filter (fun kv => !loads.contains kv.1))]
  simp

/-- C9: for a parseable combination and any load-name collection,
`splitCombination` returns the rendering of the entries whose action is
among the loads and the rendering of the others; both parts parse back to
exactly those sub-dictionaries (provided the factors re-render cleanly),
and merging the two parsed halves answers every lookup as the original
parsed dictionary does. -/
theorem split_combination_partitions {α : Type} (ops : FloatOps α) (s : String)
    (d : List (String × α)) (loads : List String)
    (hparse : getCombinationDict ops s = some d)
    (hv : ∀ kv ∈ d, goodFactorStr ops kv.2 = true)
    (hfp : ∀ kv ∈ d, ops.fparse (ops.fstr kv.2) = some kv.2) :
    splitCombination ops s loads =
      some (getCombinationExpr ops (d.filter (fun kv => loads.contains kv.1)),
        getCombinationExpr ops (d.filter (fun kv => !loads.contains kv.1))) ∧
    getCombinationDict ops
        (getCombinationExpr ops (d.filter (fun kv => loads.contains kv.1))) =
      some (d.filter (fun kv => loads.contains kv.1)) ∧
    getCombinationDict ops
        (getCombinationExpr ops (d.filter (fun kv => !loads.contains kv.1))) =
      some (d.filter (fun kv => !loads.contains kv.1)) ∧
    ∀ k, dictGet (d.filter (fun kv => loads.contains kv.1) ++
        d.filter (fun kv => !loads.contains kv.1)) k = dictGet d k := by
  obtain ⟨hgood, hndk⟩ := getCombinationDict_keys_good hparse
  have hnd : (d.map Prod.fst).Nodup := hndk
  refine ⟨splitCombination_eq ops s d loads hparse, ?_, ?_, ?_⟩
  · apply renderParse_roundtrip
    · exact fun kv hkv => hgood kv (List.mem_of_mem_filter hkv)
    · exact fun kv hkv => hv kv (List.mem_of_mem_filter hkv)
    · exact fun kv hkv => hfp kv (List.mem_of_mem_filter hkv)
    · exact List.Nodup.sublist
        (List.Sublist.map Prod.fst (List.filter_sublist d)) hnd
  · apply renderParse_roundtrip
    · exact fun kv hkv => hgood kv (List.mem_of_mem_filter hkv)
    · exact fun kv hkv => hv kv (List.mem_of_mem_filter hkv)
    · exact fun kv hkv => hfp kv (List.mem_of_mem_filter hkv)
    · exact List.Nodup.sublist
        (List.Sublist.map Prod.fst (List.filter_sublist d)) hnd
  · exact dictGet_filter_partition (fun kv => loads.contains kv.1) d hnd

/-- A one-value model of Python float behavior at large magnitudes:
`float("9999999999999999999")` succeeds and the resulting value prints as
`str` rendering `"1e+19"`, whose exponent sign is a `+`. -/
def bigFloatOps : FloatOps Unit :=
  ⟨fun _ => "1e+19",
    fun s =>
      if s = "9999999999999999999" then some ()
      else if s = "1e+19" then some () else none⟩

/-- C9 counterexample: `"9999999999999999999*G"` is parseable, but
`splitCombination` re-renders the factor as `"1e+19"`, and the resulting
part `"1e+19*G"` no longer parses (it splits at its `+`), so the parsed
halves cannot be merged back into `getCombinationDict(s)`. -/
theorem split_combination_counterexample :
    getCombinationDict bigFloatOps "9999999999999999999*G" = some [("G", ())] ∧
      splitCombination bigFloatOps "9999999999999999999*G" [] =
        some ("", "1e+19*G") ∧
      getCombinationDict bigFloatOps "1e+19*G" = none := by
  decide

/-- Witness for C9 at a concrete input: `"1.0*G1+1.35*Qwind+0.5*T"` split on
`['Qwind']`. -/
theorem split_combination_partitions_witness :
    splitCombination litFloatOps "1.0*G1+1.35*Qwind+0.5*T" ["Qwind"] =
      some ("1.35*Qwind", "1.0*G1+0.5*T") := by
  have h := (split_combination_partitions litFloatOps "1.0*G1+1.35*Qwind+0.5*T"
    [("G1", "1.0"), ("Qwind", "1.35"), ("T", "0.5")] ["Qwind"]
    (by decide) (by decide) (by decide)).1
  rw [h]
  decide

/-- Witness for C7 at a concrete input: one combination, one header line and
one statement line. -/
theorem export_writes_one_line_per_combination_witness :
    splitOnChar '\n' (writeXCLoadCombinations libmIntLog10 "ULS"
        [⟨"1.00*G"⟩]).data =
      ["combs= loadLoader.getLoadCombinations".data,
        "comb= combs.newLoadCombination(\"ULS0\",\"1.00*G\")".data, []] := by
  rw [export_writes_one_line_per_combination libmIntLog10 "ULS" [⟨"1.00*G"⟩]
    (by decide) (by decide)]
  decide

end XC
